import Mathlib

/-!
Verification of the file-handling and JSON cheat sheet
(`src/file_handling.py`).  The repository's material describes the
behaviour of the standard library's `open`/`read`/`write`/`close`,
`os.path.exists`/`os.remove` and `json.dumps`/`loads`/`dump`/`load`
primitives through a mode table, prose, and short snippets.  The
definitions below embed that described behaviour: a file system is a map
from names to optional contents, an open file is a handle carrying the
name, the mode, the current content and a cursor, and the snippets are
compositions of those operations.
-/

/-- Modelled from the spec: a file system, mapping each file name to the
content of that file when a file of that name exists (`none` otherwise).
The standard library's actual disk state is not part of the repository;
this is its description from the mode table and prose. -/
def FS : Type := String → Option String

/-- Update the file system so that `name` now maps to `c`. -/
def FS.update (fs : FS) (name : String) (c : Option String) : FS :=
  fun n => if n = name then c else fs n

/-- Modelled from the spec: the file modes of the cheat sheet's table:
`"r"` read, `"w"` write, `"a"` append, `"x"` exclusive create.  Text and
binary modes (`"t"`/`"b"`) behave alike here, with a `String` standing
for the byte sequence of a binary file. -/
inductive Mode : Type
  | r : Mode
  | w : Mode
  | a : Mode
  | x : Mode
deriving DecidableEq, Repr

/-- Whether the mode allows writing; closing a handle opened in a
writable mode flushes its content back to the file system. -/
def Mode.writable : Mode → Bool
  | .r => false
  | .w => true
  | .a => true
  | .x => true

/-- Modelled from the spec: an open file handle: the file's name, the
mode it was opened in, its current content, and the cursor position
(`tell`/`seek`). -/
structure Handle : Type where
  name : String
  mode : Mode
  content : String
  pos : Nat
deriving Repr

/-- Modelled from the spec: the errors the prose mentions: reading a
missing file errors, and exclusive-create errors if the file exists. -/
inductive FsError : Type
  | fileNotFound : FsError
  | fileExists : FsError
  | decodeFailure : FsError
deriving DecidableEq, Repr

/-- Modelled from the spec: `open(filename, mode)` following the mode
table: `"r"` errors if the file is not found, `"w"` creates or
overwrites (truncates), `"a"` adds content at the end (creating the file
when missing), `"x"` errors if the file exists and creates it
otherwise. -/
def openFile (fs : FS) (name : String) (m : Mode) :
    Except FsError (FS × Handle) :=
  match m with
  | .r =>
    match fs name with
    | some c => .ok (fs, ⟨name, .r, c, 0⟩)
    | none => .error .fileNotFound
  | .w => .ok (fs.update name (some ""), ⟨name, .w, "", 0⟩)
  | .a =>
    let c := (fs name).getD ""
    .ok (fs.update name (some c), ⟨name, .a, c, c.length⟩)
  | .x =>
    match fs name with
    | some _ => .error .fileExists
    | none => .ok (fs.update name (some ""), ⟨name, .x, "", 0⟩)

/-- Modelled from the spec: `f.read()` returns the entire remaining
content from the cursor and leaves the cursor at the end. -/
def Handle.readAll (h : Handle) : String × Handle :=
  (⟨h.content.data.drop h.pos⟩, { h with pos := h.content.data.length })

/-- Modelled from the spec: `f.write(s)` adds `s` at the end of the
handle's content (mode `"w"` starts from truncated content, mode `"a"`
always writes at the end). -/
def Handle.writeStr (h : Handle) (s : String) : Handle :=
  { h with content := h.content ++ s, pos := (h.content ++ s).data.length }

/-- Modelled from the spec: `f.close()` — a handle opened in a writable
mode flushes its content to the file system; closing a read handle
leaves the file system as it is. -/
def closeFile (fs : FS) (h : Handle) : FS :=
  if h.mode.writable then fs.update h.name (some h.content) else fs

/-- The write snippet: open in mode `"w"`, write `s`, close. -/
def writeSnippet (fs : FS) (name s : String) : Except FsError FS := do
  let (fs₁, h) ← openFile fs name .w
  pure (closeFile fs₁ (h.writeStr s))

/-- The read snippet: open in mode `"r"`, `read()` everything, close;
returns the content read together with the resulting file system. -/
def readSnippet (fs : FS) (name : String) :
    Except FsError (String × FS) := do
  let (fs₁, h) ← openFile fs name .r
  let (data, h) := h.readAll
  pure (data, closeFile fs₁ h)

/-- The append snippet: open in mode `"a"`, write `s`, close. -/
def appendSnippet (fs : FS) (name s : String) : Except FsError FS := do
  let (fs₁, h) ← openFile fs name .a
  pure (closeFile fs₁ (h.writeStr s))

/-- The binary copy snippet: open the source in `"rb"`, the destination
in `"wb"`, write `f1.read()` to the destination; the inner `with` closes
the destination first, the outer one the source. -/
def copySnippet (fs : FS) (src dst : String) : Except FsError FS := do
  let (fs₁, h₁) ← openFile fs src .r
  let (fs₂, h₂) ← openFile fs₁ dst .w
  let (bytes, h₁) := h₁.readAll
  let fs₃ := closeFile fs₂ (h₂.writeStr bytes)
  pure (closeFile fs₃ h₁)

/-- Modelled from the spec: `os.path.exists(name)`. -/
def osPathExists (fs : FS) (name : String) : Bool :=
  (fs name).isSome

/-- Modelled from the spec: `os.remove(name)` deletes the file; removing
a file that does not exist is an error. -/
def osRemove (fs : FS) (name : String) : Except FsError FS :=
  match fs name with
  | some _ => .ok (fs.update name none)
  | none => .error .fileNotFound

/-- The check-and-delete snippet: `os.remove` is called only under the
`os.path.exists` guard; otherwise only a message is printed. -/
def checkDeleteSnippet (fs : FS) (name : String) : Except FsError FS :=
  if osPathExists fs name then osRemove fs name else .ok fs

/-- Modelled from the spec: the state used to describe the `with`
statement's guarantee: the file system together with the identifiers of
the handles currently open, and a counter supplying fresh
identifiers. -/
structure WithState : Type where
  fs : FS
  openHandles : List Nat
  nextId : Nat

/-- Modelled from the spec: `with open(name, m) as f: body` — the handle
is acquired (its identifier joins the open set), the block body runs
with it, and the handle is closed automatically when control leaves the
block (flush for writable modes, identifier removed from the open set).
The body transforms the handle and produces a result. -/
def withOpen {α : Type} (st : WithState) (name : String) (m : Mode)
    (body : Handle → Handle × α) : Except FsError (WithState × α) := do
  let (fs₁, h) ← openFile st.fs name m
  let hid := st.nextId
  let st₁ : WithState := ⟨fs₁, hid :: st.openHandles, hid + 1⟩
  let (h, a) := body h
  pure (⟨closeFile st₁.fs h, st₁.openHandles.erase hid, st₁.nextId⟩, a)

/-- A concrete file system with a single file `"f"` containing
`"hello"`; used to instantiate the conditional theorems below. -/
def fsEx : FS :=
  fun n => if n = "f" then some "hello" else none

/-- The empty file system. -/
def fsEmpty : FS := fun _ => none

/-- A concrete `with`-block body: read the whole content. -/
def bodyEx : Handle → Handle × String :=
  fun h => ((h.readAll).2, (h.readAll).1)

/-!
### JSON

Modelled from the spec: the `json` module converts between an in-memory
structured value and a textual JSON representation (`dumps`/`loads` for
strings, `dump`/`load` for files, with optional key-sorting).  Numbers
are modelled as integers.  The serializer uses compact separators
(`","` and `":"` without the optional spaces).
-/

/-- Modelled from the spec: a JSON-serializable structured value: null,
booleans, (integer) numbers, strings, arrays, and objects as ordered
key-value pair lists. -/
inductive JValue : Type
  | null : JValue
  | bool : Bool → JValue
  | num : Int → JValue
  | str : String → JValue
  | arr : List JValue → JValue
  | obj : List (String × JValue) → JValue

/-- The decimal digit character for `n < 10`. -/
def natDigitChar : Nat → Char
  | 0 => '0' | 1 => '1' | 2 => '2' | 3 => '3' | 4 => '4'
  | 5 => '5' | 6 => '6' | 7 => '7' | 8 => '8' | _ => '9'

/-- The lowercase hexadecimal digit character for `n < 16`. -/
def hexDigitChar : Nat → Char
  | 0 => '0' | 1 => '1' | 2 => '2' | 3 => '3' | 4 => '4'
  | 5 => '5' | 6 => '6' | 7 => '7' | 8 => '8' | 9 => '9'
  | 10 => 'a' | 11 => 'b' | 12 => 'c' | 13 => 'd' | 14 => 'e' | _ => 'f'

/-- Decimal representation of a natural number, most significant digit
first. -/
def natToChars (n : Nat) : List Char :=
  if h : n < 10 then [natDigitChar n]
  else natToChars (n / 10) ++ [natDigitChar (n % 10)]
decreasing_by exact Nat.div_lt_self (by omega) (by omega)

/-- Decimal representation of an integer. -/
def intToChars (i : Int) : List Char :=
  if i < 0 then '-' :: natToChars i.natAbs else natToChars i.toNat

/-- Four hexadecimal digit characters of a code point below `0x10000`,
most significant first: the code point is peeled into base-16 digits
from the least significant end. -/
def hexQuad (t : Nat) : List Char :=
  let d0 := t % 16
  let t1 := t / 16
  let d1 := t1 % 16
  let t2 := t1 / 16
  let d2 := t2 % 16
  let d3 := t2 / 16 % 16
  [hexDigitChar d3, hexDigitChar d2, hexDigitChar d1, hexDigitChar d0]

/-- JSON escaping of a single character: `"` and `\` get a backslash,
control characters become `\uXXXX`, anything else is emitted as is. -/
def escapeChar (c : Char) : List Char :=
  if c = '"' then ['\\', '"']
  else if c = '\\' then ['\\', '\\']
  else if c.toNat < 32 then '\\' :: 'u' :: hexQuad c.toNat
  else [c]

/-- JSON escaping of a character sequence. -/
def escapeString : List Char → List Char
  | [] => []
  | c :: cs => escapeChar c ++ escapeString cs

mutual

/-- Modelled from the spec: `json.dumps` — serialize a structured value
to JSON text (as a character list). -/
def dumpsV : JValue → List Char
  | .null => "null".data
  | .bool true => "true".data
  | .bool false => "false".data
  | .num i => intToChars i
  | .str s => '"' :: (escapeString s.data ++ ['"'])
  | .arr xs => '[' :: (dumpsArr xs ++ [']'])
  | .obj ps => '\x7b' :: (dumpsObj ps ++ ['\x7d'])

/-- Comma-separated serialization of array elements. -/
def dumpsArr : List JValue → List Char
  | [] => []
  | [x] => dumpsV x
  | x :: xs => dumpsV x ++ ',' :: dumpsArr xs

/-- Comma-separated serialization of object members (`"key":value`). -/
def dumpsObj : List (String × JValue) → List Char
  | [] => []
  | [(k, v)] => '"' :: (escapeString k.data ++ '"' :: ':' :: dumpsV v)
  | (k, v) :: ps =>
    '"' :: (escapeString k.data ++ '"' :: ':' :: (dumpsV v ++ ',' :: dumpsObj ps))

end

/-- Modelled from the spec: `json.dumps(obj)` as a `String`. -/
def dumps (v : JValue) : String := ⟨dumpsV v⟩

mutual

/-- Fuel bound sufficient to parse a serialized value: one unit per
parser recursion step. -/
def szV : JValue → Nat
  | .arr xs => 1 + szA xs
  | .obj ps => 1 + szO ps
  | _ => 1

/-- Fuel bound for a list of array elements. -/
def szA : List JValue → Nat
  | [] => 0
  | x :: xs => 1 + szV x + szA xs

/-- Fuel bound for a list of object members. -/
def szO : List (String × JValue) → Nat
  | [] => 0
  | p :: ps => 1 + szV p.2 + szO ps

end

/-- Whether a character is a decimal digit. -/
def isDigitC (c : Char) : Bool := 48 ≤ c.toNat && c.toNat ≤ 57

/-- Whether a character is a lowercase hexadecimal digit. -/
def isHexC (c : Char) : Bool :=
  (48 ≤ c.toNat && c.toNat ≤ 57) || (97 ≤ c.toNat && c.toNat ≤ 102)

/-- Numeric value of a decimal digit character. -/
def digitV (c : Char) : Nat := c.toNat - 48

/-- Numeric value of a lowercase hexadecimal digit character. -/
def hexV (c : Char) : Nat :=
  if c.toNat ≤ 57 then c.toNat - 48 else c.toNat - 87

/-- Split off the longest prefix of decimal digits. -/
def takeDigits : List Char → List Char × List Char
  | [] => ([], [])
  | c :: cs =>
    if isDigitC c then
      let (ds, r) := takeDigits cs
      (c :: ds, r)
    else ([], c :: cs)

/-- Value of a sequence of decimal digits, accumulator style. -/
def digitsValFrom (acc : Nat) : List Char → Nat
  | [] => acc
  | c :: cs => digitsValFrom (acc * 10 + digitV c) cs

/-- Parse a (nonempty) run of decimal digits into a natural number. -/
def parseNatNum (input : List Char) : Option (Nat × List Char) :=
  match takeDigits input with
  | ([], _) => none
  | (ds, r) => some (digitsValFrom 0 ds, r)

/-- Read one logical character of a JSON string body, undoing one
escape sequence when present; `none` at the closing quote or on
malformed input. -/
def readOne : List Char → Option (Char × List Char)
  | [] => none
  | c :: rest =>
    if c = '"' then none
    else if c = '\\' then
      match rest with
      | [] => none
      | e :: rest₁ =>
        if e = '"' then some ('"', rest₁)
        else if e = '\\' then some ('\\', rest₁)
        else if e = 'u' then
          match rest₁ with
          | a :: b :: c₂ :: d :: rest₂ =>
            if isHexC a && isHexC b && isHexC c₂ && isHexC d then
              some (Char.ofNat
                (hexV a * 4096 + hexV b * 256 + hexV c₂ * 16 + hexV d),
                rest₂)
            else none
          | _ => none
        else none
    else some (c, rest)

/-- Parse the body of a JSON string after the opening quote, undoing
the escaping, up to and including the closing quote; `fuel` bounds the
number of logical characters. -/
def parseStrBody : Nat → List Char → Option (List Char × List Char)
  | 0, _ => none
  | fuel + 1, input =>
    match input with
    | [] => none
    | c :: rest =>
      if c = '"' then some ([], rest)
      else
        (readOne (c :: rest)).bind (fun q =>
          (parseStrBody fuel q.2).map (fun p => (q.1 :: p.1, p.2)))

/-- Parse a JSON string body; the input length bounds the number of
logical characters, so it serves as fuel. -/
def parseStr (l : List Char) : Option (List Char × List Char) :=
  parseStrBody (l.length + 1) l

/-- Consume the literal word `w` from the front of the input, returning
the remainder, or `none` when the input does not start with `w`. -/
def eatLit : List Char → List Char → Option (List Char)
  | [], input => some input
  | w :: ws, input =>
    match input with
    | [] => none
    | c :: rest => if c = w then eatLit ws rest else none

mutual

/-- Modelled from the spec: `json.loads` — parse one JSON value from
the front of the input, returning it with the unconsumed remainder.
`fuel` bounds the recursion depth. -/
def parseV : Nat → List Char → Option (JValue × List Char)
  | 0, _ => none
  | fuel + 1, input =>
    match input with
    | [] => none
    | c :: rest =>
      if c = 'n' then
        (eatLit "ull".data rest).map (fun r => (JValue.null, r))
      else if c = 't' then
        (eatLit "rue".data rest).map (fun r => (JValue.bool true, r))
      else if c = 'f' then
        (eatLit "alse".data rest).map (fun r => (JValue.bool false, r))
      else if c = '"' then
        (parseStr rest).map (fun p => (.str ⟨p.1⟩, p.2))
      else if c = '[' then
        match rest with
        | [] => none
        | c₂ :: rest₂ =>
          if c₂ = ']' then some (.arr [], rest₂)
          else (parseElems fuel (c₂ :: rest₂)).map (fun p => (.arr p.1, p.2))
      else if c = '\x7b' then
        match rest with
        | [] => none
        | c₂ :: rest₂ =>
          if c₂ = '\x7d' then some (.obj [], rest₂)
          else (parseMembers fuel (c₂ :: rest₂)).map (fun p => (.obj p.1, p.2))
      else if c = '-' then
        (parseNatNum rest).map (fun p => (.num (-(p.1 : Int)), p.2))
      else if isDigitC c then
        (parseNatNum (c :: rest)).map (fun p => (.num (p.1 : Int), p.2))
      else none

/-- Parse one or more comma-separated array elements followed by the
closing bracket. -/
def parseElems : Nat → List Char → Option (List JValue × List Char)
  | 0, _ => none
  | fuel + 1, input =>
    match parseV fuel input with
    | none => none
    | some (v, r) =>
      match r with
      | [] => none
      | c :: r₁ =>
        if c = ',' then
          match parseElems fuel r₁ with
          | none => none
          | some (xs, r₂) => some (v :: xs, r₂)
        else if c = ']' then some ([v], r₁)
        else none

/-- Parse one or more comma-separated object members followed by the
closing brace. -/
def parseMembers : Nat → List Char →
    Option (List (String × JValue) × List Char)
  | 0, _ => none
  | fuel + 1, input =>
    match input with
    | [] => none
    | c :: rest =>
      if c = '"' then
        match parseStr rest with
        | none => none
        | some (k, r) =>
          match r with
          | [] => none
          | c₂ :: r₂ =>
            if c₂ = ':' then
              match parseV fuel r₂ with
              | none => none
              | some (v, r₃) =>
                match r₃ with
                | [] => none
                | c₃ :: r₄ =>
                  if c₃ = ',' then
                    match parseMembers fuel r₄ with
                    | none => none
                    | some (ps, r₅) => some ((⟨k⟩, v) :: ps, r₅)
                  else if c₃ = '\x7d' then some ([(⟨k⟩, v)], r₄)
                  else none
            else none
      else none

end

/-- Modelled from the spec: `json.loads(s)` — parse a JSON string into
a structured value; `none` when the text is not a (complete) serialized
value. -/
def loads (s : String) : Option JValue :=
  match parseV (s.data.length + 1) s.data with
  | some (v, []) => some v
  | _ => none

/-- Modelled from the spec: `json.dump(v, f)` inside `with open(name,
"w")` — serialize `v` and write the text to the file. -/
def jsonDump (fs : FS) (name : String) (v : JValue) : Except FsError FS :=
  writeSnippet fs name (dumps v)

/-- Modelled from the spec: `json.load(f)` inside `with open(name,
"r")` — read the file and parse its content as JSON. -/
def jsonLoad (fs : FS) (name : String) : Except FsError JValue :=
  match readSnippet fs name with
  | .error e => .error e
  | .ok (s, _) =>
    match loads s with
    | some v => .ok v
    | none => .error .decodeFailure

/-- The input is empty or does not start with a decimal digit; a number
parse stops exactly here. -/
def NotDigitStart : List Char → Prop
  | [] => True
  | c :: _ => isDigitC c = false

/-- The input is empty or starts with one of the delimiters that can
follow a serialized value (`,`, `]`, closing brace). -/
def DelimNext : List Char → Prop
  | [] => True
  | c :: _ => c = ',' ∨ c = ']' ∨ c = '\x7d'

/-- Order on object members: compare the keys. -/
def keyLE (p q : String × JValue) : Prop := p.1 ≤ q.1

instance : DecidableRel keyLE :=
  fun p q => decidable_of_iff (p.1 ≤ q.1) Iff.rfl

instance : IsTotal (String × JValue) keyLE :=
  ⟨fun p q => le_total p.1 q.1⟩

instance : IsTrans (String × JValue) keyLE :=
  ⟨fun _ _ _ h h' => le_trans h h'⟩

/-- Strict order on object members: compare the keys strictly. -/
def keyLT (p q : String × JValue) : Prop := p.1 < q.1

instance : IsAntisymm (String × JValue) keyLT :=
  ⟨fun _ _ h h' => absurd (lt_trans h h') (lt_irrefl _)⟩

/-- Sort object members by key (insertion sort, stable). -/
def sortPairs (ps : List (String × JValue)) : List (String × JValue) :=
  List.insertionSort keyLE ps

mutual

/-- Recursively sort every object's members by key; `json.dumps` with
`sort_keys=True` emits exactly the serialization of this canonical
form. -/
def canonV : JValue → JValue
  | .null => .null
  | .bool b => .bool b
  | .num i => .num i
  | .str s => .str s
  | .arr xs => .arr (canonA xs)
  | .obj ps => .obj (sortPairs (canonO ps))

/-- Canonicalize each element of an array. -/
def canonA : List JValue → List JValue
  | [] => []
  | x :: xs => canonV x :: canonA xs

/-- Canonicalize the value of each object member. -/
def canonO : List (String × JValue) → List (String × JValue)
  | [] => []
  | (k, v) :: ps => (k, canonV v) :: canonO ps

end

/-- Modelled from the spec: `json.dumps(obj, sort_keys=True)` — the keys
of every object are listed in sorted order at every nesting level. -/
def dumpsSorted (v : JValue) : String := ⟨dumpsV (canonV v)⟩

mutual

/-- Checks that every object in the value lists its keys in sorted
order, at every nesting level. -/
def keysSortedV : JValue → Bool
  | .null => true
  | .bool _ => true
  | .num _ => true
  | .str _ => true
  | .arr xs => keysSortedA xs
  | .obj ps => decide (ps.Chain' keyLE) && keysSortedO ps

/-- All elements of an array have sorted keys. -/
def keysSortedA : List JValue → Bool
  | [] => true
  | x :: xs => keysSortedV x && keysSortedA xs

/-- All member values of an object have sorted keys. -/
def keysSortedO : List (String × JValue) → Bool
  | [] => true
  | p :: ps => keysSortedV p.2 && keysSortedO ps

end

/- ### Helper facts -/

theorem FS.update_same (fs : FS) (name : String) (c : Option String) :
    fs.update name c name = c := by
  simp [FS.update]

theorem FS.update_other (fs : FS) (name n : String) (c : Option String)
    (h : n ≠ name) : fs.update name c n = fs n := by
  simp [FS.update, h]

theorem string_empty_append (s : String) : "" ++ s = s := by
  apply String.ext
  simp

theorem string_mk_data (s : String) : String.mk s.data = s := rfl

theorem digitV_natDigitChar (k : Nat) (h : k < 10) :
    digitV (natDigitChar k) = k := by
  interval_cases k <;> rfl

theorem isDigitC_natDigitChar (k : Nat) (h : k < 10) :
    isDigitC (natDigitChar k) = true := by
  interval_cases k <;> rfl

theorem hexV_hexDigitChar (k : Nat) (h : k < 16) :
    hexV (hexDigitChar k) = k := by
  interval_cases k <;> rfl

theorem isHexC_hexDigitChar (k : Nat) (h : k < 16) :
    isHexC (hexDigitChar k) = true := by
  interval_cases k <;> rfl

theorem isDigitC_ne {c d : Char} (hc : isDigitC c = true)
    (hd : isDigitC d = false) : c ≠ d := by
  intro h
  rw [h, hd] at hc
  exact Bool.noConfusion hc

theorem natToChars_digits (n : Nat) :
    ∀ c ∈ natToChars n, isDigitC c = true := by
  induction n using Nat.strong_induction_on with
  | _ n ih =>
    rw [natToChars]
    by_cases h : n < 10
    · simp only [dif_pos h, List.mem_singleton]
      rintro c rfl
      exact isDigitC_natDigitChar n h
    · simp only [dif_neg h, List.mem_append, List.mem_singleton]
      rintro c (hc | rfl)
      · exact ih (n / 10) (Nat.div_lt_self (by omega) (by omega)) c hc
      · exact isDigitC_natDigitChar _ (Nat.mod_lt _ (by omega))

theorem natToChars_head (n : Nat) :
    ∃ c cs, natToChars n = c :: cs ∧ isDigitC c = true := by
  induction n using Nat.strong_induction_on with
  | _ n ih =>
    rw [natToChars]
    by_cases h : n < 10
    · exact ⟨natDigitChar n, [], dif_pos h, isDigitC_natDigitChar n h⟩
    · obtain ⟨c, cs, hc, hd⟩ := ih (n / 10) (Nat.div_lt_self (by omega) (by omega))
      exact ⟨c, cs ++ [natDigitChar (n % 10)], by rw [dif_neg h, hc]; rfl, hd⟩

theorem digitsValFrom_nil (acc : Nat) : digitsValFrom acc [] = acc := rfl

theorem digitsValFrom_cons (acc : Nat) (c : Char) (cs : List Char) :
    digitsValFrom acc (c :: cs) =
      digitsValFrom (acc * 10 + digitV c) cs := rfl

theorem takeDigits_cons (c : Char) (cs : List Char) :
    takeDigits (c :: cs) =
      if isDigitC c then (c :: (takeDigits cs).1, (takeDigits cs).2)
      else ([], c :: cs) := rfl

theorem digitsValFrom_append (acc : Nat) (l₁ l₂ : List Char) :
    digitsValFrom acc (l₁ ++ l₂) =
      digitsValFrom (digitsValFrom acc l₁) l₂ := by
  induction l₁ generalizing acc with
  | nil => rfl
  | cons c cs ih => exact ih (acc * 10 + digitV c)

theorem digitsValFrom_natToChars (n : Nat) :
    ∀ acc, digitsValFrom acc (natToChars n) =
      acc * 10 ^ (natToChars n).length + n := by
  induction n using Nat.strong_induction_on with
  | _ n ih =>
    intro acc
    rw [natToChars]
    by_cases h : n < 10
    · rw [dif_pos h]
      simp only [digitsValFrom_cons, digitsValFrom_nil,
        digitV_natDigitChar n h, List.length_singleton, pow_one]
    · rw [dif_neg h, digitsValFrom_append,
        ih (n / 10) (Nat.div_lt_self (by omega) (by omega)) acc]
      simp only [digitsValFrom_cons, digitsValFrom_nil,
        List.length_append, List.length_singleton,
        digitV_natDigitChar _ (Nat.mod_lt _ (by omega : (0:Nat) < 10))]
      rw [pow_succ]
      have := Nat.div_add_mod n 10
      ring_nf
      omega

theorem takeDigits_append (ds r : List Char)
    (hds : ∀ c ∈ ds, isDigitC c = true) (hr : NotDigitStart r) :
    takeDigits (ds ++ r) = (ds, r) := by
  induction ds with
  | nil =>
    cases r with
    | nil => rfl
    | cons c r' =>
      simp only [NotDigitStart] at hr
      simp [takeDigits_cons, hr]
  | cons c cs ih =>
    have hc := hds c (List.mem_cons_self c cs)
    simp only [List.cons_append, takeDigits_cons, hc, if_true,
      ih (fun d hd => hds d (List.mem_cons_of_mem c hd))]

theorem parseNatNum_natToChars (n : Nat) (r : List Char)
    (hr : NotDigitStart r) :
    parseNatNum (natToChars n ++ r) = some (n, r) := by
  obtain ⟨c, cs, hc, _⟩ := natToChars_head n
  rw [parseNatNum, takeDigits_append _ _ (natToChars_digits n) hr, hc]
  have hval := digitsValFrom_natToChars n 0
  rw [hc] at hval
  simp only [Nat.zero_mul, Nat.zero_add] at hval
  simp [hval]

theorem notDigitStart_of_delimNext (r : List Char) (h : DelimNext r) :
    NotDigitStart r := by
  cases r with
  | nil => trivial
  | cons c r' =>
    simp only [DelimNext] at h
    simp only [NotDigitStart]
    rcases h with rfl | rfl | rfl <;> rfl

theorem escapeChar_head (c : Char) :
    ∃ c₀ t, escapeChar c = c₀ :: t ∧ (c₀ = '"') = False := by
  by_cases h1 : c = '"'
  · subst h1
    exact ⟨'\\', ['"'], rfl, by decide⟩
  · by_cases h2 : c = '\\'
    · subst h2
      exact ⟨'\\', ['\\'], rfl, by decide⟩
    · by_cases h3 : c.toNat < 32
      · refine ⟨'\\', 'u' :: hexQuad c.toNat, ?_, by decide⟩
        rw [escapeChar, if_neg h1, if_neg h2, if_pos h3]
      · refine ⟨c, [], ?_, eq_false h1⟩
        rw [escapeChar, if_neg h1, if_neg h2, if_neg h3]

theorem readOne_hexQuad (t : Nat) (ht : t < 65536) (r : List Char) :
    readOne ('\\' :: 'u' :: (hexQuad t ++ r)) = some (Char.ofNat t, r) := by
  have e0 : t % 16 < 16 := Nat.mod_lt _ (by omega)
  have e1 : t / 16 % 16 < 16 := Nat.mod_lt _ (by omega)
  have e2 : t / 16 / 16 % 16 < 16 := Nat.mod_lt _ (by omega)
  have e3 : t / 16 / 16 / 16 % 16 < 16 := Nat.mod_lt _ (by omega)
  rw [show hexQuad t = [hexDigitChar (t / 16 / 16 / 16 % 16),
    hexDigitChar (t / 16 / 16 % 16), hexDigitChar (t / 16 % 16),
    hexDigitChar (t % 16)] from rfl]
  show (if isHexC (hexDigitChar (t / 16 / 16 / 16 % 16)) &&
      isHexC (hexDigitChar (t / 16 / 16 % 16)) &&
      isHexC (hexDigitChar (t / 16 % 16)) &&
      isHexC (hexDigitChar (t % 16)) then
    some (Char.ofNat (hexV (hexDigitChar (t / 16 / 16 / 16 % 16)) * 4096 +
      hexV (hexDigitChar (t / 16 / 16 % 16)) * 256 +
      hexV (hexDigitChar (t / 16 % 16)) * 16 +
      hexV (hexDigitChar (t % 16))), r)
    else none) = some (Char.ofNat t, r)
  rw [isHexC_hexDigitChar _ e3, isHexC_hexDigitChar _ e2,
    isHexC_hexDigitChar _ e1, isHexC_hexDigitChar _ e0,
    hexV_hexDigitChar _ e3, hexV_hexDigitChar _ e2,
    hexV_hexDigitChar _ e1, hexV_hexDigitChar _ e0,
    show t / 16 / 16 / 16 % 16 * 4096 + t / 16 / 16 % 16 * 256 +
      t / 16 % 16 * 16 + t % 16 = t from by omega]
  rfl

theorem readOne_escapeChar (c : Char) (r : List Char) :
    readOne (escapeChar c ++ r) = some (c, r) := by
  by_cases h1 : c = '"'
  · subst h1
    rfl
  · by_cases h2 : c = '\\'
    · subst h2
      rfl
    · by_cases h3 : c.toNat < 32
      · rw [escapeChar, if_neg h1, if_neg h2, if_pos h3,
          List.cons_append, List.cons_append,
          readOne_hexQuad c.toNat (by omega) r, Char.ofNat_toNat]
      · rw [escapeChar, if_neg h1, if_neg h2, if_neg h3]
        simp only [List.cons_append, List.nil_append, readOne,
          if_neg h1, if_neg h2]

theorem parseStrBody_succ_cons (fuel : Nat) (c : Char) (rest : List Char) :
    parseStrBody (fuel + 1) (c :: rest) =
      if c = '"' then some ([], rest)
      else
        (readOne (c :: rest)).bind (fun q =>
          (parseStrBody fuel q.2).map (fun p => (q.1 :: p.1, p.2))) := rfl

theorem parseStrBody_escapeString (l : List Char) :
    ∀ fuel r, l.length + 1 ≤ fuel →
      parseStrBody fuel (escapeString l ++ '"' :: r) = some (l, r) := by
  induction l with
  | nil =>
    intro fuel r hf
    cases fuel with
    | zero => omega
    | succ f => simp [escapeString, parseStrBody_succ_cons]
  | cons c cs ih =>
    intro fuel r hf
    cases fuel with
    | zero => omega
    | succ f =>
      obtain ⟨c₀, t, hesc, hne⟩ := escapeChar_head c
      have hlist : escapeString (c :: cs) ++ '"' :: r =
          c₀ :: (t ++ (escapeString cs ++ '"' :: r)) := by
        rw [escapeString, List.append_assoc, hesc]
        rfl
      rw [hlist, parseStrBody_succ_cons, if_neg (by simp [hne]),
        show c₀ :: (t ++ (escapeString cs ++ '"' :: r)) =
          escapeChar c ++ (escapeString cs ++ '"' :: r) from by rw [hesc]; rfl,
        readOne_escapeChar]
      show (parseStrBody f (escapeString cs ++ '"' :: r)).map
          (fun p => (c :: p.1, p.2)) = some (c :: cs, r)
      rw [ih f _ (by simpa using hf)]
      rfl

theorem escapeChar_length (c : Char) : 1 ≤ (escapeChar c).length := by
  by_cases h1 : c = '"'
  · simp [escapeChar, h1]
  · by_cases h2 : c = '\\'
    · simp [escapeChar, h1, h2]
    · by_cases h3 : c.toNat < 32
      · simp [escapeChar, h1, h2, h3]
      · simp [escapeChar, h1, h2, h3]

theorem escapeString_length (l : List Char) :
    l.length ≤ (escapeString l).length := by
  induction l with
  | nil => simp [escapeString]
  | cons c cs ih =>
    rw [escapeString, List.length_append, List.length_cons]
    have := escapeChar_length c
    omega

theorem parseStr_escapeString (l r : List Char) :
    parseStr (escapeString l ++ '"' :: r) = some (l, r) := by
  apply parseStrBody_escapeString
  have := escapeString_length l
  simp only [List.length_append, List.length_cons]
  omega

theorem natToChars_head_ne (n : Nat) :
    ∃ c cs, natToChars n = c :: cs ∧ isDigitC c = true ∧
      (c = ']') = False ∧ (c = '\x7d') = False := by
  obtain ⟨c, cs, hc, hd⟩ := natToChars_head n
  exact ⟨c, cs, hc, hd, eq_false (isDigitC_ne hd (by decide)),
    eq_false (isDigitC_ne hd (by decide))⟩

theorem dumpsV_head (v : JValue) :
    ∃ c cs, dumpsV v = c :: cs ∧ (c = ']') = False ∧ (c = '\x7d') = False := by
  cases v with
  | null => exact ⟨'n', _, rfl, by decide, by decide⟩
  | bool b =>
    cases b with
    | true => exact ⟨'t', _, rfl, by decide, by decide⟩
    | false => exact ⟨'f', _, rfl, by decide, by decide⟩
  | num i =>
    by_cases hi : i < 0
    · exact ⟨'-', _, by rw [show dumpsV (.num i) = intToChars i from rfl,
        intToChars, if_pos hi], by decide, by decide⟩
    · obtain ⟨c, cs, hc, _, h1, h2⟩ := natToChars_head_ne i.toNat
      exact ⟨c, cs, by rw [show dumpsV (.num i) = intToChars i from rfl,
        intToChars, if_neg hi, hc], h1, h2⟩
  | str s => exact ⟨'"', _, rfl, by decide, by decide⟩
  | arr xs => exact ⟨'[', _, rfl, by decide, by decide⟩
  | obj ps => exact ⟨'\x7b', _, rfl, by decide, by decide⟩

theorem szV_pos (v : JValue) : 1 ≤ szV v := by
  cases v <;> simp [szV] <;> omega

theorem szA_pos (x : JValue) (xs : List JValue) : 1 ≤ szA (x :: xs) := by
  simp [szA]
  omega

theorem szO_pos (p : String × JValue) (ps : List (String × JValue)) :
    1 ≤ szO (p :: ps) := by
  simp [szO]
  omega

theorem parseV_succ_cons (fuel : Nat) (c : Char) (rest : List Char) :
    parseV (fuel + 1) (c :: rest) =
      if c = 'n' then
        (eatLit "ull".data rest).map (fun r => (JValue.null, r))
      else if c = 't' then
        (eatLit "rue".data rest).map (fun r => (JValue.bool true, r))
      else if c = 'f' then
        (eatLit "alse".data rest).map (fun r => (JValue.bool false, r))
      else if c = '"' then
        (parseStr rest).map (fun p => (JValue.str ⟨p.1⟩, p.2))
      else if c = '[' then
        (match rest with
          | [] => none
          | c₂ :: rest₂ =>
            if c₂ = ']' then some (JValue.arr [], rest₂)
            else (parseElems fuel (c₂ :: rest₂)).map
              (fun p => (JValue.arr p.1, p.2)))
      else if c = '\x7b' then
        (match rest with
          | [] => none
          | c₂ :: rest₂ =>
            if c₂ = '\x7d' then some (JValue.obj [], rest₂)
            else (parseMembers fuel (c₂ :: rest₂)).map
              (fun p => (JValue.obj p.1, p.2)))
      else if c = '-' then
        (parseNatNum rest).map (fun p => (JValue.num (-(p.1 : Int)), p.2))
      else if isDigitC c then
        (parseNatNum (c :: rest)).map (fun p => (JValue.num (p.1 : Int), p.2))
      else none := rfl

theorem parseElems_succ (fuel : Nat) (input : List Char) :
    parseElems (fuel + 1) input =
      match parseV fuel input with
      | none => none
      | some (v, r) =>
        match r with
        | [] => none
        | c :: r₁ =>
          if c = ',' then
            match parseElems fuel r₁ with
            | none => none
            | some (xs, r₂) => some (v :: xs, r₂)
          else if c = ']' then some ([v], r₁)
          else none := rfl

theorem parseMembers_succ (fuel : Nat) (input : List Char) :
    parseMembers (fuel + 1) input =
      match input with
      | [] => none
      | c :: rest =>
        if c = '"' then
          match parseStr rest with
          | none => none
          | some (k, r) =>
            match r with
            | [] => none
            | c₂ :: r₂ =>
              if c₂ = ':' then
                match parseV fuel r₂ with
                | none => none
                | some (v, r₃) =>
                  match r₃ with
                  | [] => none
                  | c₃ :: r₄ =>
                    if c₃ = ',' then
                      match parseMembers fuel r₄ with
                      | none => none
                      | some (ps, r₅) => some ((⟨k⟩, v) :: ps, r₅)
                    else if c₃ = '\x7d' then some ([(⟨k⟩, v)], r₄)
                    else none
              else none
        else none := rfl

theorem delimNext_comma (l : List Char) : DelimNext (',' :: l) := by
  simp [DelimNext]

theorem delimNext_rbracket (l : List Char) : DelimNext (']' :: l) := by
  simp [DelimNext]

theorem delimNext_rbrace (l : List Char) : DelimNext ('\x7d' :: l) := by
  simp [DelimNext]

/-- The parser inverts the serializer: on any serialized value followed
by a delimiter (or nothing), `parseV` returns exactly that value, with
enough fuel; likewise for nonempty element and member lists. -/
theorem parse_dumps (fuel : Nat) :
    (∀ v r, szV v ≤ fuel → DelimNext r →
      parseV fuel (dumpsV v ++ r) = some (v, r)) ∧
    (∀ x xs r, szA (x :: xs) ≤ fuel →
      parseElems fuel (dumpsArr (x :: xs) ++ ']' :: r) = some (x :: xs, r)) ∧
    (∀ p ps r, szO (p :: ps) ≤ fuel →
      parseMembers fuel (dumpsObj (p :: ps) ++ '\x7d' :: r) =
        some (p :: ps, r)) := by
  induction fuel with
  | zero =>
    refine ⟨fun v r hv _ => absurd hv (by have := szV_pos v; omega),
      fun x xs r h => absurd h (by have := szA_pos x xs; omega),
      fun p ps r h => absurd h (by have := szO_pos p ps; omega)⟩
  | succ f ih =>
    obtain ⟨ihV, ihA, ihO⟩ := ih
    refine ⟨?_, ?_, ?_⟩
    · intro v r hv hr
      cases v with
      | null => rfl
      | bool b => cases b <;> rfl
      | num i =>
        by_cases hi : i < 0
        · rw [show dumpsV (.num i) ++ r = '-' :: (natToChars i.natAbs ++ r) by
            rw [show dumpsV (.num i) = intToChars i from rfl, intToChars,
              if_pos hi]; rfl]
          rw [show parseV (f + 1) ('-' :: (natToChars i.natAbs ++ r)) =
            (parseNatNum (natToChars i.natAbs ++ r)).map
              (fun p => (JValue.num (-(p.1 : Int)), p.2)) from rfl]
          rw [parseNatNum_natToChars _ _ (notDigitStart_of_delimNext r hr)]
          show some (JValue.num (-(i.natAbs : Int)), r) = some (JValue.num i, r)
          rw [show -(i.natAbs : Int) = i by omega]
        · obtain ⟨c, cs, hc, hdig, _, _⟩ := natToChars_head_ne i.toNat
          rw [show dumpsV (.num i) ++ r = c :: (cs ++ r) by
            rw [show dumpsV (.num i) = intToChars i from rfl, intToChars,
              if_neg hi, hc]; rfl]
          rw [parseV_succ_cons,
            if_neg (isDigitC_ne hdig (by decide) : c ≠ 'n'),
            if_neg (isDigitC_ne hdig (by decide) : c ≠ 't'),
            if_neg (isDigitC_ne hdig (by decide) : c ≠ 'f'),
            if_neg (isDigitC_ne hdig (by decide) : c ≠ '"'),
            if_neg (isDigitC_ne hdig (by decide) : c ≠ '['),
            if_neg (isDigitC_ne hdig (by decide) : c ≠ '\x7b'),
            if_neg (isDigitC_ne hdig (by decide) : c ≠ '-'),
            if_pos hdig,
            show c :: (cs ++ r) = natToChars i.toNat ++ r by rw [hc]; rfl,
            parseNatNum_natToChars _ _ (notDigitStart_of_delimNext r hr)]
          show some (JValue.num ((i.toNat : Int)), r) = some (JValue.num i, r)
          rw [show ((i.toNat : Int)) = i by omega]
      | str s =>
        rw [show dumpsV (.str s) ++ r =
            '"' :: (escapeString s.data ++ '"' :: r) by
          rw [show dumpsV (.str s) = '"' :: (escapeString s.data ++ ['"'])
            from rfl]; simp]
        rw [show parseV (f + 1) ('"' :: (escapeString s.data ++ '"' :: r)) =
          (parseStr (escapeString s.data ++ '"' :: r)).map
            (fun p => (JValue.str ⟨p.1⟩, p.2)) from rfl]
        rw [parseStr_escapeString]
        show some (JValue.str ⟨s.data⟩, r) = some (JValue.str s, r)
        rw [string_mk_data]
      | arr xs =>
        cases xs with
        | nil => rfl
        | cons x xs' =>
          obtain ⟨c, cs, hx, h1, _⟩ := dumpsV_head x
          have harr : ∃ t, dumpsArr (x :: xs') = c :: t := by
            cases xs' with
            | nil => exact ⟨cs, by rw [show dumpsArr [x] = dumpsV x from rfl, hx]⟩
            | cons y ys =>
              exact ⟨cs ++ ',' :: dumpsArr (y :: ys), by
                rw [show dumpsArr (x :: y :: ys) =
                  dumpsV x ++ ',' :: dumpsArr (y :: ys) from rfl, hx]; rfl⟩
          obtain ⟨t, ht⟩ := harr
          rw [show dumpsV (.arr (x :: xs')) ++ r =
              '[' :: c :: (t ++ ']' :: r) by
            rw [show dumpsV (.arr (x :: xs')) =
              '[' :: (dumpsArr (x :: xs') ++ [']']) from rfl, ht]; simp]
          rw [show parseV (f + 1) ('[' :: c :: (t ++ ']' :: r)) =
            (if c = ']' then some (JValue.arr [], t ++ ']' :: r)
             else (parseElems f (c :: (t ++ ']' :: r))).map
               (fun p => (JValue.arr p.1, p.2))) from rfl]
          rw [if_neg (by simp [h1]),
            show c :: (t ++ ']' :: r) = dumpsArr (x :: xs') ++ ']' :: r by
              rw [ht]; rfl,
            ihA x xs' r (by
              rw [show szV (.arr (x :: xs')) = 1 + szA (x :: xs')
                from rfl] at hv
              omega)]
          rfl
      | obj ps =>
        cases ps with
        | nil => rfl
        | cons p ps' =>
          obtain ⟨k, v⟩ := p
          have hobj : ∃ t, dumpsObj ((k, v) :: ps') = '"' :: t := by
            cases ps' with
            | nil => exact ⟨_, rfl⟩
            | cons q qs => exact ⟨_, rfl⟩
          obtain ⟨t, ht⟩ := hobj
          rw [show dumpsV (.obj ((k, v) :: ps')) ++ r =
              '\x7b' :: '"' :: (t ++ '\x7d' :: r) by
            rw [show dumpsV (.obj ((k, v) :: ps')) =
              '\x7b' :: (dumpsObj ((k, v) :: ps') ++ ['\x7d']) from rfl, ht]
            simp]
          rw [show parseV (f + 1) ('\x7b' :: '"' :: (t ++ '\x7d' :: r)) =
            (parseMembers f ('"' :: (t ++ '\x7d' :: r))).map
              (fun p => (JValue.obj p.1, p.2)) from rfl]
          rw [show '"' :: (t ++ '\x7d' :: r) =
              dumpsObj ((k, v) :: ps') ++ '\x7d' :: r by rw [ht]; rfl,
            ihO (k, v) ps' r (by
              rw [show szV (.obj ((k, v) :: ps')) = 1 + szO ((k, v) :: ps')
                from rfl] at hv
              omega)]
          rfl
    · intro x xs r h
      cases xs with
      | nil =>
        have hx : szV x ≤ f := by
          rw [show szA [x] = 1 + szV x + szA [] from rfl,
            show szA ([] : List JValue) = 0 from rfl] at h
          omega
        rw [show dumpsArr [x] ++ ']' :: r = dumpsV x ++ ']' :: r from rfl,
          parseElems_succ, ihV x (']' :: r) hx (delimNext_rbracket r)]
        rfl
      | cons y ys =>
        have hx : szV x ≤ f ∧ szA (y :: ys) ≤ f := by
          rw [show szA (x :: y :: ys) = 1 + szV x + szA (y :: ys) from rfl] at h
          have := szA_pos y ys
          have := szV_pos x
          omega
        rw [show dumpsArr (x :: y :: ys) ++ ']' :: r =
            dumpsV x ++ ',' :: (dumpsArr (y :: ys) ++ ']' :: r) by
          rw [show dumpsArr (x :: y :: ys) =
            dumpsV x ++ ',' :: dumpsArr (y :: ys) from rfl]; simp]
        rw [parseElems_succ,
          ihV x (',' :: (dumpsArr (y :: ys) ++ ']' :: r)) hx.1
            (delimNext_comma _)]
        show (match parseElems f (dumpsArr (y :: ys) ++ ']' :: r) with
          | none => none
          | some (xs, r₂) => some (x :: xs, r₂)) = some (x :: y :: ys, r)
        rw [ihA y ys r hx.2]
    · intro p ps r h
      obtain ⟨k, v⟩ := p
      have hv : szV v ≤ f := by
        rw [show szO ((k, v) :: ps) = 1 + szV v + szO ps from rfl] at h
        have : 0 ≤ szO ps := Nat.zero_le _
        omega
      cases ps with
      | nil =>
        rw [show dumpsObj [(k, v)] ++ '\x7d' :: r =
            '"' :: (escapeString k.data ++ '"' ::
              (':' :: (dumpsV v ++ '\x7d' :: r))) by
          rw [show dumpsObj [(k, v)] =
            '"' :: (escapeString k.data ++ '"' :: ':' :: dumpsV v) from rfl]
          simp]
        rw [parseMembers_succ]
        show (match parseStr (escapeString k.data ++ '"' ::
            (':' :: (dumpsV v ++ '\x7d' :: r))) with
          | none => none
          | some (kd, r₁) =>
            match r₁ with
            | [] => none
            | c₂ :: r₂ =>
              if c₂ = ':' then
                match parseV f r₂ with
                | none => none
                | some (w, r₃) =>
                  match r₃ with
                  | [] => none
                  | c₃ :: r₄ =>
                    if c₃ = ',' then
                      match parseMembers f r₄ with
                      | none => none
                      | some (qs, r₅) => some ((⟨kd⟩, w) :: qs, r₅)
                    else if c₃ = '\x7d' then some ([(⟨kd⟩, w)], r₄)
                    else none
              else none) = some ([(k, v)], r)
        rw [parseStr_escapeString]
        show (match parseV f (dumpsV v ++ '\x7d' :: r) with
          | none => none
          | some (w, r₃) =>
            match r₃ with
            | [] => none
            | c₃ :: r₄ =>
              if c₃ = ',' then
                match parseMembers f r₄ with
                | none => none
                | some (qs, r₅) => some ((⟨k.data⟩, w) :: qs, r₅)
              else if c₃ = '\x7d' then some ([(⟨k.data⟩, w)], r₄)
              else none) = some ([(k, v)], r)
        rw [ihV v ('\x7d' :: r) hv (delimNext_rbrace r)]
        show some ([(String.mk k.data, v)], r) = some ([(k, v)], r)
        rw [string_mk_data]
      | cons q qs =>
        have hqs : szO (q :: qs) ≤ f := by
          rw [show szO ((k, v) :: q :: qs) =
            1 + szV v + szO (q :: qs) from rfl] at h
          omega
        rw [show dumpsObj ((k, v) :: q :: qs) ++ '\x7d' :: r =
            '"' :: (escapeString k.data ++ '"' ::
              (':' :: (dumpsV v ++ ',' ::
                (dumpsObj (q :: qs) ++ '\x7d' :: r)))) by
          rw [show dumpsObj ((k, v) :: q :: qs) =
            '"' :: (escapeString k.data ++ '"' :: ':' ::
              (dumpsV v ++ ',' :: dumpsObj (q :: qs))) from rfl]
          simp]
        rw [parseMembers_succ]
        show (match parseStr (escapeString k.data ++ '"' ::
            (':' :: (dumpsV v ++ ',' ::
              (dumpsObj (q :: qs) ++ '\x7d' :: r)))) with
          | none => none
          | some (kd, r₁) =>
            match r₁ with
            | [] => none
            | c₂ :: r₂ =>
              if c₂ = ':' then
                match parseV f r₂ with
                | none => none
                | some (w, r₃) =>
                  match r₃ with
                  | [] => none
                  | c₃ :: r₄ =>
                    if c₃ = ',' then
                      match parseMembers f r₄ with
                      | none => none
                      | some (qs', r₅) => some ((⟨kd⟩, w) :: qs', r₅)
                    else if c₃ = '\x7d' then some ([(⟨kd⟩, w)], r₄)
                    else none
              else none) = some ((k, v) :: q :: qs, r)
        rw [parseStr_escapeString]
        show (match parseV f (dumpsV v ++ ',' ::
            (dumpsObj (q :: qs) ++ '\x7d' :: r)) with
          | none => none
          | some (w, r₃) =>
            match r₃ with
            | [] => none
            | c₃ :: r₄ =>
              if c₃ = ',' then
                match parseMembers f r₄ with
                | none => none
                | some (qs', r₅) => some ((⟨k.data⟩, w) :: qs', r₅)
              else if c₃ = '\x7d' then some ([(⟨k.data⟩, w)], r₄)
              else none) = some ((k, v) :: q :: qs, r)
        rw [ihV v (',' :: (dumpsObj (q :: qs) ++ '\x7d' :: r)) hv
          (delimNext_comma _)]
        show (match parseMembers f (dumpsObj (q :: qs) ++ '\x7d' :: r) with
          | none => none
          | some (qs', r₅) => some ((⟨k.data⟩, v) :: qs', r₅)) =
          some ((k, v) :: q :: qs, r)
        rw [ihO q qs r hqs]

theorem natToChars_length_pos (n : Nat) : 1 ≤ (natToChars n).length := by
  obtain ⟨c, cs, hc, _⟩ := natToChars_head n
  rw [hc]
  simp

theorem intToChars_length_pos (i : Int) : 1 ≤ (intToChars i).length := by
  rw [intToChars]
  by_cases hi : i < 0
  · rw [if_pos hi]
    simp
  · rw [if_neg hi]
    exact natToChars_length_pos _

theorem sz_le_len (n : Nat) :
    (∀ v : JValue, sizeOf v ≤ n → szV v ≤ (dumpsV v).length) ∧
    (∀ xs : List JValue, sizeOf xs ≤ n → szA xs ≤ 1 + (dumpsArr xs).length) ∧
    (∀ ps : List (String × JValue), sizeOf ps ≤ n →
      szO ps ≤ 1 + (dumpsObj ps).length) := by
  induction n with
  | zero =>
    refine ⟨fun v h => absurd h ?_, fun xs h => absurd h ?_,
      fun ps h => absurd h ?_⟩
    · cases v <;> simp
    · cases xs <;> simp
    · cases ps <;> simp
  | succ m ih =>
    obtain ⟨ihV, ihA, ihO⟩ := ih
    refine ⟨?_, ?_, ?_⟩
    · intro v hsz
      cases v with
      | null => decide
      | bool b => cases b <;> decide
      | num i =>
        rw [show szV (.num i) = 1 from rfl,
          show dumpsV (.num i) = intToChars i from rfl]
        exact intToChars_length_pos i
      | str s =>
        rw [show szV (.str s) = 1 from rfl,
          show dumpsV (.str s) = '"' :: (escapeString s.data ++ ['"'])
            from rfl]
        simp
      | arr xs =>
        have hxs : sizeOf xs ≤ m := by
          simp only [JValue.arr.sizeOf_spec] at hsz
          omega
        have := ihA xs hxs
        rw [show szV (.arr xs) = 1 + szA xs from rfl,
          show dumpsV (.arr xs) = '[' :: (dumpsArr xs ++ [']']) from rfl]
        simp only [List.length_cons, List.length_append, List.length_singleton]
        omega
      | obj ps =>
        have hps : sizeOf ps ≤ m := by
          simp only [JValue.obj.sizeOf_spec] at hsz
          omega
        have := ihO ps hps
        rw [show szV (.obj ps) = 1 + szO ps from rfl,
          show dumpsV (.obj ps) = '\x7b' :: (dumpsObj ps ++ ['\x7d'])
            from rfl]
        simp only [List.length_cons, List.length_append, List.length_singleton]
        omega
    · intro xs hsz
      cases xs with
      | nil => decide
      | cons x xs' =>
        have hx : sizeOf x ≤ m ∧ sizeOf xs' ≤ m := by
          simp only [List.cons.sizeOf_spec] at hsz
          constructor <;> omega
        have h1 := ihV x hx.1
        rw [show szA (x :: xs') = 1 + szV x + szA xs' from rfl]
        cases xs' with
        | nil =>
          rw [show dumpsArr [x] = dumpsV x from rfl,
            show szA ([] : List JValue) = 0 from rfl]
          omega
        | cons y ys =>
          have h2 := ihA (y :: ys) hx.2
          rw [show dumpsArr (x :: y :: ys) =
            dumpsV x ++ ',' :: dumpsArr (y :: ys) from rfl]
          simp only [List.length_append, List.length_cons]
          omega
    · intro ps hsz
      cases ps with
      | nil => decide
      | cons p ps' =>
        obtain ⟨k, v⟩ := p
        have hx : sizeOf v ≤ m ∧ sizeOf ps' ≤ m := by
          simp only [List.cons.sizeOf_spec, Prod.mk.sizeOf_spec] at hsz
          constructor <;> omega
        have h1 := ihV v hx.1
        rw [show szO ((k, v) :: ps') = 1 + szV v + szO ps' from rfl]
        cases ps' with
        | nil =>
          rw [show dumpsObj [(k, v)] =
            '"' :: (escapeString k.data ++ '"' :: ':' :: dumpsV v) from rfl,
            show szO ([] : List (String × JValue)) = 0 from rfl]
          simp only [List.length_cons, List.length_append]
          omega
        | cons q qs =>
          have h2 := ihO (q :: qs) hx.2
          rw [show dumpsObj ((k, v) :: q :: qs) =
            '"' :: (escapeString k.data ++ '"' :: ':' ::
              (dumpsV v ++ ',' :: dumpsObj (q :: qs))) from rfl]
          simp only [List.length_cons, List.length_append]
          omega

theorem szV_le_length (v : JValue) : szV v ≤ (dumpsV v).length :=
  (sz_le_len (sizeOf v)).1 v le_rfl

theorem readSnippet_run (fs : FS) (name c : String) (h : fs name = some c) :
    readSnippet fs name = .ok (c, fs) := by
  unfold readSnippet openFile
  rw [h]
  show Except.ok (String.mk (c.data.drop 0),
    closeFile fs ⟨name, .r, c, 0⟩) = .ok (c, fs)
  rw [List.drop_zero, string_mk_data]
  rfl

theorem jsonLoad_run (fs : FS) (name c : String) (v : JValue)
    (h : fs name = some c) (hl : loads c = some v) :
    jsonLoad fs name = .ok v := by
  unfold jsonLoad
  rw [readSnippet_run fs name c h]
  show (match loads c with
    | some v => Except.ok v
    | none => Except.error FsError.decodeFailure) = .ok v
  rw [hl]

theorem loads_dumps (v : JValue) : loads (dumps v) = some v := by
  have hp := (parse_dumps ((dumpsV v).length + 1)).1 v []
    (by have := szV_le_length v; omega) trivial
  rw [List.append_nil] at hp
  show (match parseV ((dumpsV v).length + 1) (dumpsV v) with
    | some (w, []) => some w
    | _ => none) = some v
  rw [hp]

theorem canonO_map (ps : List (String × JValue)) :
    canonO ps = ps.map (fun p => (p.1, canonV p.2)) := by
  induction ps with
  | nil => rfl
  | cons p ps ih =>
    obtain ⟨k, v⟩ := p
    rw [show canonO ((k, v) :: ps) = (k, canonV v) :: canonO ps from rfl, ih]
    rfl

theorem sortPairs_sorted (l : List (String × JValue)) :
    List.Sorted keyLE (sortPairs l) :=
  List.sorted_insertionSort keyLE l

theorem sortPairs_perm (l : List (String × JValue)) :
    List.Perm (sortPairs l) l :=
  List.perm_insertionSort keyLE l

theorem sorted_keyLT (l : List (String × JValue))
    (hs : List.Sorted keyLE l) (hnd : (l.map Prod.fst).Nodup) :
    List.Sorted keyLT l := by
  have hne : l.Pairwise (fun p q : String × JValue => p.1 ≠ q.1) :=
    List.pairwise_map.mp hnd
  exact (hs.and hne).imp (fun h => lt_of_le_of_ne h.1 h.2)

theorem sortPairs_eq_of_perm (l₁ l₂ : List (String × JValue))
    (h : List.Perm l₁ l₂) (hnd : (l₁.map Prod.fst).Nodup) :
    sortPairs l₁ = sortPairs l₂ := by
  have hp : List.Perm (sortPairs l₁) (sortPairs l₂) :=
    (sortPairs_perm l₁).trans (h.trans (sortPairs_perm l₂).symm)
  have hnd₁ : ((sortPairs l₁).map Prod.fst).Nodup :=
    (((sortPairs_perm l₁).map Prod.fst).nodup_iff).mpr hnd
  have hnd₂ : ((sortPairs l₂).map Prod.fst).Nodup :=
    (((sortPairs_perm l₂).map Prod.fst).nodup_iff).mpr
      (((h.map Prod.fst).nodup_iff).mp hnd)
  exact List.eq_of_perm_of_sorted hp
    (sorted_keyLT _ (sortPairs_sorted l₁) hnd₁)
    (sorted_keyLT _ (sortPairs_sorted l₂) hnd₂)

theorem keysSortedO_iff (l : List (String × JValue)) :
    keysSortedO l = true ↔ ∀ p ∈ l, keysSortedV p.2 = true := by
  induction l with
  | nil => simp [keysSortedO]
  | cons p ps ih =>
    rw [show keysSortedO (p :: ps) = (keysSortedV p.2 && keysSortedO ps)
      from rfl, Bool.and_eq_true, ih]
    simp

theorem canon_keysSorted (n : Nat) :
    (∀ v : JValue, sizeOf v ≤ n → keysSortedV (canonV v) = true) ∧
    (∀ xs : List JValue, sizeOf xs ≤ n → keysSortedA (canonA xs) = true) ∧
    (∀ ps : List (String × JValue), sizeOf ps ≤ n →
      keysSortedO (canonO ps) = true) := by
  induction n with
  | zero =>
    refine ⟨fun v h => absurd h ?_, fun xs h => absurd h ?_,
      fun ps h => absurd h ?_⟩
    · cases v <;> simp
    · cases xs <;> simp
    · cases ps <;> simp
  | succ m ih =>
    obtain ⟨ihV, ihA, ihO⟩ := ih
    refine ⟨?_, ?_, ?_⟩
    · intro v hsz
      cases v with
      | null => rfl
      | bool b => rfl
      | num i => rfl
      | str s => rfl
      | arr xs =>
        have hxs : sizeOf xs ≤ m := by
          simp only [JValue.arr.sizeOf_spec] at hsz
          omega
        exact ihA xs hxs
      | obj ps =>
        have hps : sizeOf ps ≤ m := by
          simp only [JValue.obj.sizeOf_spec] at hsz
          omega
        rw [show canonV (.obj ps) = .obj (sortPairs (canonO ps)) from rfl,
          show keysSortedV (.obj (sortPairs (canonO ps))) =
            (decide ((sortPairs (canonO ps)).Chain' keyLE) &&
              keysSortedO (sortPairs (canonO ps))) from rfl,
          Bool.and_eq_true]
        refine ⟨decide_eq_true ((sortPairs_sorted (canonO ps)).chain'), ?_⟩
        rw [keysSortedO_iff]
        intro p hp
        exact (keysSortedO_iff (canonO ps)).mp (ihO ps hps) p
          ((sortPairs_perm (canonO ps)).mem_iff.mp hp)
    · intro xs hsz
      cases xs with
      | nil => rfl
      | cons x xs' =>
        have hx : sizeOf x ≤ m ∧ sizeOf xs' ≤ m := by
          simp only [List.cons.sizeOf_spec] at hsz
          constructor <;> omega
        rw [show canonA (x :: xs') = canonV x :: canonA xs' from rfl,
          show keysSortedA (canonV x :: canonA xs') =
            (keysSortedV (canonV x) && keysSortedA (canonA xs')) from rfl,
          Bool.and_eq_true]
        exact ⟨ihV x hx.1, ihA xs' hx.2⟩
    · intro ps hsz
      cases ps with
      | nil => rfl
      | cons p ps' =>
        obtain ⟨k, v⟩ := p
        have hx : sizeOf v ≤ m ∧ sizeOf ps' ≤ m := by
          simp only [List.cons.sizeOf_spec, Prod.mk.sizeOf_spec] at hsz
          constructor <;> omega
        rw [show canonO ((k, v) :: ps') = (k, canonV v) :: canonO ps'
            from rfl,
          show keysSortedO ((k, canonV v) :: canonO ps') =
            (keysSortedV (canonV v) && keysSortedO (canonO ps')) from rfl,
          Bool.and_eq_true]
        exact ⟨ihV v hx.1, ihO ps' hx.2⟩

/- ### Claims about the file-mode table and the snippets -/

/-- C2: writing `s` to a file in mode `"w"` and reading the same file
back in mode `"r"` returns exactly `s`. -/
theorem write_then_read_roundtrip (fs : FS) (name s : String) :
    (writeSnippet fs name s).bind
      (fun fs₁ => (readSnippet fs₁ name).map Prod.fst) = .ok s := by
  simp only [writeSnippet, openFile, Handle.writeStr, closeFile,
    readSnippet, Handle.readAll, Mode.writable, pure, Except.pure,
    Except.bind, bind, Except.map, FS.update_same, string_empty_append]
  simp [FS.update_same, string_empty_append, string_mk_data]

/-- C3: opening a file in mode `"r"` errors exactly when no file of
that name exists; when the file exists, the open succeeds and leaves
the file system unmodified (the handle holds the existing content). -/
theorem open_r_spec (fs : FS) (name : String) :
    ((∃ e, openFile fs name .r = .error e) ↔ fs name = none) ∧
    (∀ c, fs name = some c →
      openFile fs name .r = .ok (fs, ⟨name, .r, c, 0⟩)) := by
  constructor
  · cases hfs : fs name with
    | some c => simp [openFile, hfs]
    | none => simp [openFile, hfs]
  · intro c hc
    simp [openFile, hc]

/-- Witness for C3 at the concrete file system `fsEx`. -/
theorem open_r_spec_witness :
    openFile fsEx "f" .r = .ok (fsEx, ⟨"f", .r, "hello", 0⟩) :=
  (open_r_spec fsEx "f").2 "hello" rfl

/-- C4: opening a file in mode `"x"` errors exactly when a file of that
name already exists; when none exists, the open succeeds and creates a
new (empty) file of that name. -/
theorem open_x_spec (fs : FS) (name : String) :
    ((∃ e, openFile fs name .x = .error e) ↔ ∃ c, fs name = some c) ∧
    (fs name = none →
      openFile fs name .x =
        .ok (fs.update name (some ""), ⟨name, .x, "", 0⟩) ∧
      (fs.update name (some "")) name = some "") := by
  constructor
  · cases hfs : fs name with
    | some c => simp [openFile, hfs]
    | none => simp [openFile, hfs]
  · intro hc
    exact ⟨by simp [openFile, hc], FS.update_same fs name (some "")⟩

/-- Witness for C4 at the empty file system. -/
theorem open_x_spec_witness :
    openFile fsEmpty "f" .x =
      .ok (fsEmpty.update "f" (some ""), ⟨"f", .x, "", 0⟩) ∧
    (fsEmpty.update "f" (some "")) "f" = some "" :=
  (open_x_spec fsEmpty "f").2 rfl

/-- C5: after the write snippet (mode `"w"`, write `s`, close), the file
contains exactly `s`, whatever it contained before and whether or not it
existed. -/
theorem write_overwrites (fs : FS) (name s : String) :
    (writeSnippet fs name s).map (fun fs' => fs' name) =
      .ok (some s) := by
  simp only [writeSnippet, openFile, Handle.writeStr, closeFile,
    Mode.writable, pure, Except.pure, Except.bind, bind, Except.map]
  simp [FS.update_same, string_empty_append]

/-- C6: after the append snippet (mode `"a"`, write `s`, close) on a
file containing `c`, the file contains `c` followed by `s`. -/
theorem append_appends (fs : FS) (name s c : String)
    (hc : fs name = some c) :
    (appendSnippet fs name s).map (fun fs' => fs' name) =
      .ok (some (c ++ s)) := by
  simp only [appendSnippet, openFile, Handle.writeStr, closeFile,
    Mode.writable, pure, Except.pure, Except.bind, bind, Except.map, hc]
  simp [FS.update_same]

/-- Witness for C6 at the concrete file system `fsEx`. -/
theorem append_appends_witness :
    (appendSnippet fsEx "f" "!").map (fun fs' => fs' "f") =
      .ok (some ("hello" ++ "!")) :=
  append_appends fsEx "f" "!" "hello" rfl

/-- C7: after the binary copy snippet, the destination holds exactly the
source's byte sequence and the source is unchanged. -/
theorem copy_spec (fs : FS) (src dst b : String)
    (hne : src ≠ dst) (hb : fs src = some b) :
    (copySnippet fs src dst).map (fun fs' => (fs' dst, fs' src)) =
      .ok (some b, some b) := by
  simp only [copySnippet, openFile, Handle.readAll, Handle.writeStr,
    closeFile, Mode.writable, pure, Except.pure, Except.bind, bind,
    Except.map, hb]
  simp [FS.update_same, FS.update_other, string_empty_append,
    string_mk_data, hne, Ne.symm hne, hb]

/-- Witness for C7: copying `"f"` to `"g"` in `fsEx`. -/
theorem copy_spec_witness :
    (copySnippet fsEx "f" "g").map (fun h => (h "g", h "f")) =
      .ok (some "hello", some "hello") :=
  copy_spec fsEx "f" "g" "hello" (by decide) rfl

/-- C8: the check-and-delete snippet never errors (remove runs only
under the existence guard), and afterwards the named file does not
exist. -/
theorem check_delete_spec (fs : FS) (name : String) :
    (checkDeleteSnippet fs name).map (fun fs' => fs' name) =
      .ok none := by
  cases hfs : fs name with
  | some c =>
    simp [checkDeleteSnippet, osPathExists, osRemove, hfs,
      FS.update_same, Except.map]
  | none =>
    simp [checkDeleteSnippet, osPathExists, hfs, Except.map]

/-- C9: whenever a `with open(...)` block completes, the handle it
acquired has been closed: the set of open handles afterwards is exactly
the set before. -/
theorem with_open_closes {α : Type} (st : WithState) (name : String)
    (m : Mode) (body : Handle → Handle × α) (res : WithState × α)
    (hres : withOpen st name m body = .ok res) :
    res.1.openHandles = st.openHandles := by
  unfold withOpen at hres
  cases hopen : openFile st.fs name m with
  | error e => rw [hopen] at hres; exact absurd hres (by simp [Except.bind, bind])
  | ok p =>
    rw [hopen] at hres
    simp only [Except.bind, bind, pure, Except.pure] at hres
    cases hres
    simp [List.erase_cons_head]

/-- Witness for C9: a concrete read inside a `with` block on `fsEx`. -/
theorem with_open_closes_witness :
    ((⟨fsEx, [], 1⟩, "hello") : WithState × String).1.openHandles =
      (⟨fsEx, [], 0⟩ : WithState).openHandles :=
  with_open_closes ⟨fsEx, [], 0⟩ "f" .r bodyEx (⟨fsEx, [], 1⟩, "hello") rfl

/-- C1: serializing a structured value and deserializing the result
yields the same value, both through strings (`dumps`/`loads`) and
through a file written by `dump` and read back by `load`. -/
theorem json_roundtrip (v : JValue) (fs : FS) (name : String) :
    loads (dumps v) = some v ∧
    (jsonDump fs name v).bind (fun fs' => jsonLoad fs' name) = .ok v := by
  refine ⟨loads_dumps v, ?_⟩
  have hw : jsonDump fs name v =
      .ok ((fs.update name (some "")).update name
        (some ("" ++ dumps v))) := rfl
  rw [hw]
  show jsonLoad ((fs.update name (some "")).update name
    (some ("" ++ dumps v))) name = .ok v
  apply jsonLoad_run _ _ ("" ++ dumps v)
  · exact FS.update_same _ _ _
  · rw [string_empty_append]
    exact loads_dumps v

/-- C10: `dumps` with key-sorting emits the serialization of the
canonical form, whose objects list their keys in sorted order at every
nesting level; and two objects holding the same key-value pairs (in any
order, keys distinct) serialize to the same string. -/
theorem dumps_sortKeys_spec (v : JValue) (ps₁ ps₂ : List (String × JValue))
    (hperm : List.Perm ps₁ ps₂) (hnodup : (ps₁.map Prod.fst).Nodup) :
    dumpsSorted v = dumps (canonV v) ∧
    keysSortedV (canonV v) = true ∧
    dumpsSorted (.obj ps₁) = dumpsSorted (.obj ps₂) := by
  refine ⟨rfl, (canon_keysSorted (sizeOf v)).1 v le_rfl, ?_⟩
  have hmap : (ps₁.map (fun p => (p.1, canonV p.2))).map Prod.fst =
      ps₁.map Prod.fst := by
    simp
  have hsp : sortPairs (canonO ps₁) = sortPairs (canonO ps₂) := by
    apply sortPairs_eq_of_perm
    · rw [canonO_map, canonO_map]
      exact hperm.map _
    · rw [canonO_map, hmap]
      exact hnodup
  unfold dumpsSorted
  rw [show canonV (.obj ps₁) = .obj (sortPairs (canonO ps₁)) from rfl,
    show canonV (.obj ps₂) = .obj (sortPairs (canonO ps₂)) from rfl, hsp]

/-- Witness for C10 at a two-key object, its keys given in the two
possible orders. -/
theorem dumps_sortKeys_spec_witness :
    dumpsSorted (.obj [("b", .num 1), ("a", .num 2)]) =
      dumps (canonV (.obj [("b", .num 1), ("a", .num 2)])) ∧
    keysSortedV (canonV (.obj [("b", .num 1), ("a", .num 2)])) = true ∧
    dumpsSorted (.obj [("b", .num 1), ("a", .num 2)]) =
      dumpsSorted (.obj [("a", .num 2), ("b", .num 1)]) :=
  dumps_sortKeys_spec _ _ _ (List.Perm.swap _ _ _) (by decide)
